import Mathlib

/-!
Shallow embedding of `src/pipeline/ingest_data.py` (NYC taxi CSV chunked
ingestion into a relational table), together with a model of the external
collaborators the script drives: pandas chunked CSV reading with dtype
coercion, and `DataFrame.to_sql` against a SQLAlchemy engine.

The repository code under `src/` is the authority for the ingestion loop
(`ingest_data_in_chunks`); the pandas/store primitives it calls are not part
of the repository, so they are modelled from their documented behaviour as
restated by the spec, each clearly marked `Modelled from the spec:` in its
doc comment.
-/

namespace Pipeline

/-- Semantic column types of the fixed schema: pandas dtypes `Int64`
(nullable 64-bit integer), `float64`, `string`, and the `parse_dates`
timestamp columns. -/
inductive ColType where
  | int64
  | float64
  | str
  | timestamp
  deriving DecidableEq, Repr

/-- A typed cell value as stored in a batch / in the destination table.
`missing` is pandas `NA`/`NaN`/`NaT` (the absent value). A float is
represented exactly as mantissa times ten to the minus fracDigits, since no
claim computes with float arithmetic. -/
inductive Value where
  | intVal (i : Int)
  | floatVal (mantissa : Int) (fracDigits : Nat)
  | strVal (s : String)
  | tsVal (t : Nat)
  | missing
  deriving DecidableEq, Repr

/-- The error pandas raises when a raw cell cannot be coerced to its declared
dtype, identifying the column name, the row offset within the batch, and the
raw value. -/
structure SchemaViolation where
  col : String
  rowOffset : Nat
  raw : String
  deriving DecidableEq, Repr

/-- The two fatal error kinds the ingestion loop can stop with. -/
inductive LoadError where
  | schemaViolation (sv : SchemaViolation)
  | storeError
  deriving DecidableEq, Repr

/-- The destination table: the number of declared columns and the rows
present (each row the list of values the insert populated). -/
structure Table where
  ncols : Nat
  rows : List (List Value)
  deriving DecidableEq, Repr

/-- A CSV source: the header row and the data rows (header excluded),
each data row a list of raw text fields. -/
structure Source where
  header : List String
  rows : List (List String)
  deriving DecidableEq, Repr

/-- Outcome of one run of `ingest_data_in_chunks`: the destination table of
the given name (`none` when no table of that name exists), the final
`total_rows_processed`, the per-batch progress events
`(rows in this batch, cumulative total after)` in emission order, and the
error that stopped the run, if any. -/
structure IngestResult where
  db : Option Table
  total : Nat
  events : List (Nat × Nat)
  err : Option LoadError
  deriving DecidableEq, Repr

/-! ## Text parsers (model of pandas dtype coercion) -/

/-- Decimal value of a digit string (most significant first). -/
def digitsVal (cs : List Char) : Nat :=
  cs.foldl (fun a c => a * 10 + (c.toNat - 48)) 0

/-- Modelled from the spec: pandas coercion of a raw field to nullable
`Int64` — an optional sign followed by at least one digit. -/
def parseInt64 (s : String) : Option Int :=
  match s.data with
  | '-' :: cs => if cs ≠ [] ∧ cs.all Char.isDigit then some (-(digitsVal cs : Int)) else none
  | '+' :: cs => if cs ≠ [] ∧ cs.all Char.isDigit then some ((digitsVal cs : Int)) else none
  | cs => if cs ≠ [] ∧ cs.all Char.isDigit then some ((digitsVal cs : Int)) else none

/-- Split a character list at the first dot, if any. -/
def splitDot : List Char → List Char × List Char
  | [] => ([], [])
  | c :: cs => if c = '.' then ([], cs) else ((splitDot cs).1.cons c, (splitDot cs).2)

/-- Modelled from the spec: pandas coercion of a raw field to `float64` — an
optional sign, digits, an optional dot, more digits; at least one digit in
total. Returns the exact mantissa and the number of fractional digits. -/
def parseFloat64 (s : String) : Option (Int × Nat) :=
  let core : List Char → Option (Nat × Nat) := fun cs =>
    let p := splitDot cs
    if (p.1.all Char.isDigit ∧ p.2.all Char.isDigit) ∧ (p.1 ≠ [] ∨ p.2 ≠ []) then
      some (digitsVal (p.1 ++ p.2), p.2.length)
    else none
  match s.data with
  | '-' :: cs => (core cs).map fun q => (-(q.1 : Int), q.2)
  | '+' :: cs => (core cs).map fun q => ((q.1 : Int), q.2)
  | cs => (core cs).map fun q => ((q.1 : Int), q.2)

/-- Modelled from the spec: the permissive but deterministic date-time
parser applied to the designated timestamp columns — separators are
stripped and the remaining text must be digits. -/
def parseTimestamp (s : String) : Option Nat :=
  let cs := s.data.filter fun c => ¬(c = '-' ∨ c = ':' ∨ c = ' ' ∨ c = '.' ∨ c = '/' ∨ c = 'T')
  if cs ≠ [] ∧ cs.all Char.isDigit then some (digitsVal cs) else none

/-- Modelled from the spec: coercion of one raw cell to its declared type.
An empty field in any nullable column is the explicit missing marker and
becomes the absent value `Value.missing`, not zero; a non-coercible value is
`none` (a coercion failure). -/
def coerceCell : ColType → String → Option Value
  | .int64, "" => some Value.missing
  | .int64, s => (parseInt64 s).map Value.intVal
  | .float64, "" => some Value.missing
  | .float64, s => (parseFloat64 s).map fun q => Value.floatVal q.1 q.2
  | .str, "" => some Value.missing
  | .str, s => some (Value.strVal s)
  | .timestamp, "" => some Value.missing
  | .timestamp, s => (parseTimestamp s).map Value.tsVal

/-- Coerce the cells of one raw row against the schema positionally; on the
first non-coercible cell report its column name and raw value. -/
def coerceCells : List (String × ColType) → List String → Except (String × String) (List Value)
  | [], _ => .ok []
  | _ :: _, [] => .ok []
  | col :: schema, cell :: cells =>
    match coerceCell col.2 cell with
    | none => .error (col.1, cell)
    | some v =>
      match coerceCells schema cells with
      | .error e => .error e
      | .ok vs => .ok (v :: vs)

/-- Coerce a list of raw rows, numbering them from `i`; on the first row
with a non-coercible cell report a `SchemaViolation` carrying the column,
the row offset, and the raw value. -/
def coerceRows (schema : List (String × ColType)) :
    List (List String) → Nat → Except SchemaViolation (List (List Value))
  | [], _ => .ok []
  | r :: rs, i =>
    match coerceCells schema r with
    | .error e => .error ⟨e.1, i, e.2⟩
    | .ok vs =>
      match coerceRows schema rs (i + 1) with
      | .error e => .error e
      | .ok bs => .ok (vs :: bs)

/-- Modelled from the spec: the typing pandas applies to one chunk when the
iterator produces it (dtype coercion with per-chunk row offsets). -/
def coerceChunk (schema : List (String × ColType)) (c : List (List String)) :
    Except SchemaViolation (List (List Value)) :=
  coerceRows schema c 0

/-- Coerce every chunk of a list; `none` when any chunk fails. -/
def coerceChunks (schema : List (String × ColType)) :
    List (List (List String)) → Option (List (List (List Value)))
  | [] => some []
  | c :: cs =>
    match coerceChunk schema c with
    | .error _ => none
    | .ok b =>
      match coerceChunks schema cs with
      | none => none
      | some bs => some (b :: bs)

/-! ## Chunked reading (model of pandas `read_csv(iterator=True, chunksize=n)`) -/

/-- Fuel-driven worker for `chunksOf`; the fuel only bounds the recursion
depth and any fuel at least the list length gives the same result. -/
def chunksOfFuel (n : Nat) : Nat → List α → List (List α)
  | _, [] => []
  | 0, l => [l]
  | fuel + 1, x :: xs => (x :: xs.take (n - 1)) :: chunksOfFuel n fuel (xs.drop (n - 1))

/-- Modelled from the spec: `pandas.read_csv` with `iterator=True` and
`chunksize=n` splits the data rows (header excluded) into successive batches
of `n` rows in file order, the final batch possibly smaller. -/
def chunksOf (n : Nat) (l : List α) : List (List α) :=
  chunksOfFuel n l.length l

/-! ## Store operations (model of `DataFrame.to_sql`) -/

/-- Modelled from the spec: `chunk.head(0).to_sql(name, con, if_exists="replace")`
— drops any existing table of that name and creates an empty table whose
declared columns are the chunk's columns plus the DataFrame index column
(`to_sql` is called without `index=False`, and its default includes the
index as a column). -/
def createTableReplace (schemaLen : Nat) : Table :=
  ⟨schemaLen + 1, []⟩

/-- Modelled from the spec: `chunk.to_sql(name, con, if_exists="append",
index=False)` on an existing table — one atomic unit appending every row of
the batch, populating only the chunk's own columns. -/
def appendBatch (t : Table) (b : List (List Value)) : Table :=
  ⟨t.ncols, t.rows ++ b⟩

/-- `to_sql` with `if_exists="append"` when no table of the name exists
creates it from the frame (with `index=False`, so no index column). Never
reached by the ingestion loop, whose first chunk always creates the table. -/
def appendBatchOpt (schemaLen : Nat) (db : Option Table) (b : List (List Value)) : Table :=
  match db with
  | some t => appendBatch t b
  | none => ⟨schemaLen, b⟩

/-! ## The ingestion loop (`ingest_data_in_chunks`, src lines 80–119) -/

/-- The expected progress-event list for batches of the given sizes starting
from a running total. -/
def progressEvents (total : Nat) : List Nat → List (Nat × Nat)
  | [] => []
  | l :: ls => (l, total + l) :: progressEvents (total + l) ls

/-- Total number of rows across a list of batches. -/
def sumLens (bs : List (List (List Value))) : Nat :=
  (bs.map List.length).sum

/-- The `for chunk in df_iterator` loop of `ingest_data_in_chunks`.
`fail k` says whether the store append of batch `k` (0-based) fails; a
failed append is atomic (no row of that batch becomes visible). Pulling a
chunk from the iterator applies dtype coercion (`coerceChunk`); a coercion
failure stops the run before the loop body, leaving table and counter
untouched. On the first chunk the table is created with replace semantics
before the append. On a successful append the counter is increased by the
chunk's row count and a progress event is emitted. -/
def ingestLoop (fail : Nat → Bool) (schema : List (String × ColType)) :
    List (List (List String)) → Nat → Bool → Option Table → Nat → IngestResult
  | [], _, _, db, total => ⟨db, total, [], none⟩
  | chunk :: rest, k, is_first_chunk, db, total =>
    match coerceChunk schema chunk with
    | .error sv => ⟨db, total, [], some (LoadError.schemaViolation sv)⟩
    | .ok b =>
      let db1 := if is_first_chunk then some (createTableReplace schema.length) else db
      if fail k then
        ⟨db1, total, [], some LoadError.storeError⟩
      else
        let chunk_rows := b.length
        let total2 := total + chunk_rows
        let r := ingestLoop fail schema rest (k + 1) false
          (some (appendBatchOpt schema.length db1 b)) total2
        ⟨r.db, r.total, (chunk_rows, total2) :: r.events, r.err⟩

/-- `ingest_data_in_chunks(engine, data_url, chunk_size, table_name)`:
reads the source in chunks of `chunk_size` data rows and runs the loop with
`is_first_chunk = true` and `total_rows_processed = 0`. `db0` is the state
of the destination table of that name before the run (`none` when absent). -/
def ingest_data_in_chunks (fail : Nat → Bool) (schema : List (String × ColType))
    (chunk_size : Nat) (db0 : Option Table) (src : Source) : IngestResult :=
  ingestLoop fail schema (chunksOf chunk_size src.rows) 0 true db0 0

/-! ## The concrete schema of the script (src lines 13–35) -/

/-- The `DATATYPES` constant: dtype of each non-date column. -/
def DATATYPES : List (String × ColType) :=
  [("VendorID", .int64),
   ("passenger_count", .int64),
   ("trip_distance", .float64),
   ("RatecodeID", .int64),
   ("store_and_fwd_flag", .str),
   ("PULocationID", .int64),
   ("DOLocationID", .int64),
   ("payment_type", .int64),
   ("fare_amount", .float64),
   ("extra", .float64),
   ("mta_tax", .float64),
   ("tip_amount", .float64),
   ("tolls_amount", .float64),
   ("improvement_surcharge", .float64),
   ("total_amount", .float64),
   ("congestion_surcharge", .float64)]

/-- The `DATE_COLUMNS` constant: columns parsed as timestamps. -/
def DATE_COLUMNS : List String :=
  ["tpep_pickup_datetime", "tpep_dropoff_datetime"]

/-- The schema the reader applies to the yellow-taxi CSV, in file column
order: `DATATYPES` entries plus the two `DATE_COLUMNS` as timestamps. -/
def yellowSchema : List (String × ColType) :=
  [("VendorID", .int64),
   ("tpep_pickup_datetime", .timestamp),
   ("tpep_dropoff_datetime", .timestamp),
   ("passenger_count", .int64),
   ("trip_distance", .float64),
   ("RatecodeID", .int64),
   ("store_and_fwd_flag", .str),
   ("PULocationID", .int64),
   ("DOLocationID", .int64),
   ("payment_type", .int64),
   ("fare_amount", .float64),
   ("extra", .float64),
   ("mta_tax", .float64),
   ("tip_amount", .float64),
   ("tolls_amount", .float64),
   ("improvement_surcharge", .float64),
   ("total_amount", .float64),
   ("congestion_surcharge", .float64)]

/-! ## Lemmas about chunked reading -/

theorem chunksOfFuel_congr (n : Nat) :
    ∀ (f g : Nat) (l : List α), l.length ≤ f → l.length ≤ g →
      chunksOfFuel n f l = chunksOfFuel n g l := by
  intro f
  induction f with
  | zero =>
    intro g l hf hg
    have h0 : l = [] := List.length_eq_zero.mp (Nat.le_zero.mp hf)
    subst h0
    cases g <;> rfl
  | succ f ih =>
    intro g l hf hg
    match l with
    | [] => cases g <;> rfl
    | x :: xs =>
      match g with
      | g + 1 =>
        simp only [chunksOfFuel]
        have hf1 : (xs.drop (n - 1)).length ≤ f := by
          simp only [List.length_drop]
          simp at hf
          omega
        have hg1 : (xs.drop (n - 1)).length ≤ g := by
          simp only [List.length_drop]
          simp at hg
          omega
        rw [ih g (xs.drop (n - 1)) hf1 hg1]

theorem chunksOf_nil (n : Nat) : chunksOf n ([] : List α) = [] := by
  simp [chunksOf, chunksOfFuel]

theorem chunksOf_cons (n : Nat) (x : α) (xs : List α) :
    chunksOf n (x :: xs) = (x :: xs.take (n - 1)) :: chunksOf n (xs.drop (n - 1)) := by
  show chunksOfFuel n (xs.length + 1) (x :: xs) = _
  simp only [chunksOfFuel, chunksOf]
  rw [chunksOfFuel_congr n xs.length (xs.drop (n - 1)).length (xs.drop (n - 1))
    (by simp [List.length_drop]) (Nat.le_refl _)]

theorem chunksOf_eq_nil_iff (n : Nat) (l : List α) : chunksOf n l = [] ↔ l = [] := by
  cases l <;> simp [chunksOf_nil, chunksOf_cons]

theorem chunksOf_sum_length_aux (n : Nat) :
    ∀ (fuel : Nat) (l : List α), l.length ≤ fuel →
      ((chunksOf n l).map List.length).sum = l.length := by
  intro fuel
  induction fuel with
  | zero =>
    intro l hl
    have h0 : l = [] := List.length_eq_zero.mp (Nat.le_zero.mp hl)
    subst h0
    simp [chunksOf_nil]
  | succ f ih =>
    intro l hl
    match l with
    | [] => simp [chunksOf_nil]
    | x :: xs =>
      rw [chunksOf_cons]
      have hrec := ih (xs.drop (n - 1)) (by simp [List.length_drop]; simp at hl; omega)
      simp only [List.map_cons, List.sum_cons, hrec, List.length_cons, List.length_take,
        List.length_drop]
      omega

theorem chunksOf_sum_length (n : Nat) (l : List α) :
    ((chunksOf n l).map List.length).sum = l.length :=
  chunksOf_sum_length_aux n l.length l (Nat.le_refl _)

theorem chunksOf_flatten_aux (n : Nat) :
    ∀ (fuel : Nat) (l : List α), l.length ≤ fuel → (chunksOf n l).flatten = l := by
  intro fuel
  induction fuel with
  | zero =>
    intro l hl
    have h0 : l = [] := List.length_eq_zero.mp (Nat.le_zero.mp hl)
    subst h0
    simp [chunksOf_nil]
  | succ f ih =>
    intro l hl
    match l with
    | [] => simp [chunksOf_nil]
    | x :: xs =>
      rw [chunksOf_cons]
      have hrec := ih (xs.drop (n - 1)) (by simp [List.length_drop]; simp at hl; omega)
      simp [hrec]

theorem chunksOf_flatten (n : Nat) (l : List α) : (chunksOf n l).flatten = l :=
  chunksOf_flatten_aux n l.length l (Nat.le_refl _)

theorem chunksOf_length_le_aux (n : Nat) (hn : 0 < n) :
    ∀ (fuel : Nat) (l : List α), l.length ≤ fuel →
      ∀ c ∈ chunksOf n l, c.length ≤ n := by
  intro fuel
  induction fuel with
  | zero =>
    intro l hl
    have h0 : l = [] := List.length_eq_zero.mp (Nat.le_zero.mp hl)
    subst h0
    simp [chunksOf_nil]
  | succ f ih =>
    intro l hl c hc
    match l with
    | [] => simp [chunksOf_nil] at hc
    | x :: xs =>
      rw [chunksOf_cons] at hc
      rcases List.mem_cons.mp hc with h | h
      · subst h
        simp only [List.length_cons, List.length_take]
        omega
      · exact ih (xs.drop (n - 1)) (by simp [List.length_drop]; simp at hl; omega) c h

theorem chunksOf_length_le (n : Nat) (hn : 0 < n) (l : List α) :
    ∀ c ∈ chunksOf n l, c.length ≤ n :=
  chunksOf_length_le_aux n hn l.length l (Nat.le_refl _)

theorem chunksOf_dropLast_length_aux (n : Nat) (hn : 0 < n) :
    ∀ (fuel : Nat) (l : List α), l.length ≤ fuel →
      ∀ c ∈ (chunksOf n l).dropLast, c.length = n := by
  intro fuel
  induction fuel with
  | zero =>
    intro l hl
    have h0 : l = [] := List.length_eq_zero.mp (Nat.le_zero.mp hl)
    subst h0
    simp [chunksOf_nil]
  | succ f ih =>
    intro l hl c hc
    match l with
    | [] => simp [chunksOf_nil] at hc
    | x :: xs =>
      rw [chunksOf_cons] at hc
      by_cases hrest : chunksOf n (xs.drop (n - 1)) = []
      · rw [hrest] at hc
        simp at hc
      · rw [List.dropLast_cons_of_ne_nil hrest] at hc
        rcases List.mem_cons.mp hc with h | h
        · subst h
          have hne : xs.drop (n - 1) ≠ [] := by
            intro h0
            exact hrest ((chunksOf_eq_nil_iff n _).mpr h0)
          have hlen : n - 1 < xs.length := by
            by_contra hcon
            exact hne (List.drop_eq_nil_of_le (by omega))
          simp only [List.length_cons, List.length_take]
          omega
        · exact ih (xs.drop (n - 1)) (by simp [List.length_drop]; simp at hl; omega) c h

theorem chunksOf_dropLast_length (n : Nat) (hn : 0 < n) (l : List α) :
    ∀ c ∈ (chunksOf n l).dropLast, c.length = n :=
  chunksOf_dropLast_length_aux n hn l.length l (Nat.le_refl _)

/-! ## Lemmas about coercion -/

theorem coerceCells_length :
    ∀ (schema : List (String × ColType)) (r : List String) (v : List Value),
      coerceCells schema r = Except.ok v → v.length = min schema.length r.length := by
  intro schema
  induction schema with
  | nil =>
    intro r v h
    simp only [coerceCells] at h
    cases h
    simp
  | cons col schema ih =>
    intro r v h
    match r with
    | [] =>
      simp only [coerceCells] at h
      cases h
      simp
    | cell :: cells =>
      simp only [coerceCells] at h
      cases hc : coerceCell col.2 cell with
      | none => rw [hc] at h; cases h
      | some v0 =>
        rw [hc] at h
        cases hcs : coerceCells schema cells with
        | error e => rw [hcs] at h; cases h
        | ok vs =>
          rw [hcs] at h
          cases h
          have := ih cells vs hcs
          simp only [List.length_cons, this]
          omega

theorem coerceCells_get :
    ∀ (schema : List (String × ColType)) (r : List String) (v : List Value),
      coerceCells schema r = Except.ok v →
      ∀ (j : Nat) (hj : j < schema.length) (hr : j < r.length),
        v.get? j = coerceCell (schema.get ⟨j, hj⟩).2 (r.get ⟨j, hr⟩) := by
  intro schema
  induction schema with
  | nil =>
    intro r v h j hj hr
    simp at hj
  | cons col schema ih =>
    intro r v h j hj hr
    match r with
    | [] => simp at hr
    | cell :: cells =>
      simp only [coerceCells] at h
      cases hc : coerceCell col.2 cell with
      | none => rw [hc] at h; cases h
      | some v0 =>
        rw [hc] at h
        cases hcs : coerceCells schema cells with
        | error e => rw [hcs] at h; cases h
        | ok vs =>
          rw [hcs] at h
          cases h
          match j with
          | 0 => simp [List.get, hc]
          | j + 1 =>
            have := ih cells vs hcs j (by simpa using hj) (by simpa using hr)
            simpa using this

theorem coerceRows_length (schema : List (String × ColType)) :
    ∀ (rs : List (List String)) (i : Nat) (bs : List (List Value)),
      coerceRows schema rs i = Except.ok bs → bs.length = rs.length := by
  intro rs
  induction rs with
  | nil =>
    intro i bs h
    simp only [coerceRows] at h
    cases h
    rfl
  | cons r rs ih =>
    intro i bs h
    simp only [coerceRows] at h
    cases hc : coerceCells schema r with
    | error e => rw [hc] at h; cases h
    | ok vs =>
      rw [hc] at h
      cases hcs : coerceRows schema rs (i + 1) with
      | error e => rw [hcs] at h; cases h
      | ok bs0 =>
        rw [hcs] at h
        cases h
        simp [ih (i + 1) bs0 hcs]

theorem coerceRows_mem (schema : List (String × ColType)) :
    ∀ (rs : List (List String)) (i : Nat) (bs : List (List Value)),
      coerceRows schema rs i = Except.ok bs →
      ∀ r ∈ rs, ∃ v, coerceCells schema r = Except.ok v ∧ v ∈ bs := by
  intro rs
  induction rs with
  | nil =>
    intro i bs h r hr
    simp at hr
  | cons r0 rs ih =>
    intro i bs h r hr
    simp only [coerceRows] at h
    cases hc : coerceCells schema r0 with
    | error e => rw [hc] at h; cases h
    | ok vs =>
      rw [hc] at h
      cases hcs : coerceRows schema rs (i + 1) with
      | error e => rw [hcs] at h; cases h
      | ok bs0 =>
        rw [hcs] at h
        cases h
        rcases List.mem_cons.mp hr with h0 | h0
        · subst h0
          exact ⟨vs, hc, List.mem_cons_self _ _⟩
        · rcases ih (i + 1) bs0 hcs r h0 with ⟨v, hv1, hv2⟩
          exact ⟨v, hv1, List.mem_cons_of_mem _ hv2⟩

theorem coerceRows_mem_rev (schema : List (String × ColType)) :
    ∀ (rs : List (List String)) (i : Nat) (bs : List (List Value)),
      coerceRows schema rs i = Except.ok bs →
      ∀ v ∈ bs, ∃ r ∈ rs, coerceCells schema r = Except.ok v := by
  intro rs
  induction rs with
  | nil =>
    intro i bs h v hv
    simp only [coerceRows] at h
    cases h
    simp at hv
  | cons r0 rs ih =>
    intro i bs h v hv
    simp only [coerceRows] at h
    cases hc : coerceCells schema r0 with
    | error e => rw [hc] at h; cases h
    | ok vs =>
      rw [hc] at h
      cases hcs : coerceRows schema rs (i + 1) with
      | error e => rw [hcs] at h; cases h
      | ok bs0 =>
        rw [hcs] at h
        cases h
        rcases List.mem_cons.mp hv with h0 | h0
        · subst h0
          exact ⟨r0, List.mem_cons_self _ _, hc⟩
        · rcases ih (i + 1) bs0 hcs v h0 with ⟨r, hr1, hr2⟩
          exact ⟨r, List.mem_cons_of_mem _ hr1, hr2⟩

theorem coerceChunks_map_length (schema : List (String × ColType)) :
    ∀ (chunks : List (List (List String))) (bs : List (List (List Value))),
      coerceChunks schema chunks = some bs →
      bs.map List.length = chunks.map List.length := by
  intro chunks
  induction chunks with
  | nil =>
    intro bs h
    simp only [coerceChunks] at h
    cases h
    rfl
  | cons c cs ih =>
    intro bs h
    simp only [coerceChunks] at h
    cases hc : coerceChunk schema c with
    | error e => rw [hc] at h; cases h
    | ok b =>
      rw [hc] at h
      cases hcs : coerceChunks schema cs with
      | none => rw [hcs] at h; cases h
      | some bs0 =>
        rw [hcs] at h
        cases h
        simp [ih bs0 hcs, coerceRows_length schema c 0 b hc]

theorem coerceChunks_mem (schema : List (String × ColType)) :
    ∀ (chunks : List (List (List String))) (bs : List (List (List Value))),
      coerceChunks schema chunks = some bs →
      ∀ c ∈ chunks, ∃ b ∈ bs, coerceChunk schema c = Except.ok b := by
  intro chunks
  induction chunks with
  | nil =>
    intro bs h c hc
    simp at hc
  | cons c0 cs ih =>
    intro bs h c hc
    simp only [coerceChunks] at h
    cases hc0 : coerceChunk schema c0 with
    | error e => rw [hc0] at h; cases h
    | ok b0 =>
      rw [hc0] at h
      cases hcs : coerceChunks schema cs with
      | none => rw [hcs] at h; cases h
      | some bs0 =>
        rw [hcs] at h
        cases h
        rcases List.mem_cons.mp hc with h0 | h0
        · subst h0
          exact ⟨b0, List.mem_cons_self _ _, hc0⟩
        · rcases ih bs0 hcs c h0 with ⟨b, hb1, hb2⟩
          exact ⟨b, List.mem_cons_of_mem _ hb1, hb2⟩

theorem coerceChunks_mem_rev (schema : List (String × ColType)) :
    ∀ (chunks : List (List (List String))) (bs : List (List (List Value))),
      coerceChunks schema chunks = some bs →
      ∀ b ∈ bs, ∃ c ∈ chunks, coerceChunk schema c = Except.ok b := by
  intro chunks
  induction chunks with
  | nil =>
    intro bs h b hb
    simp only [coerceChunks] at h
    cases h
    simp at hb
  | cons c0 cs ih =>
    intro bs h b hb
    simp only [coerceChunks] at h
    cases hc0 : coerceChunk schema c0 with
    | error e => rw [hc0] at h; cases h
    | ok b0 =>
      rw [hc0] at h
      cases hcs : coerceChunks schema cs with
      | none => rw [hcs] at h; cases h
      | some bs0 =>
        rw [hcs] at h
        cases h
        rcases List.mem_cons.mp hb with h0 | h0
        · subst h0
          exact ⟨c0, List.mem_cons_self _ _, hc0⟩
        · rcases ih bs0 hcs b h0 with ⟨c, hc1, hc2⟩
          exact ⟨c, List.mem_cons_of_mem _ hc1, hc2⟩

/-! ## Lemmas about the ingestion loop -/

theorem sumLens_nil : sumLens [] = 0 := rfl

theorem sumLens_cons (b : List (List Value)) (bs : List (List (List Value))) :
    sumLens (b :: bs) = b.length + sumLens bs := by
  simp [sumLens]

/-- Prepend already-emitted progress events to a loop result. -/
def prependEvents (es : List (Nat × Nat)) (r : IngestResult) : IngestResult :=
  ⟨r.db, r.total, es ++ r.events, r.err⟩

theorem prependEvents_nil (r : IngestResult) : prependEvents [] r = r := by
  simp [prependEvents]

theorem prependEvents_append (e1 e2 : List (Nat × Nat)) (r : IngestResult) :
    prependEvents e1 (prependEvents e2 r) = prependEvents (e1 ++ e2) r := by
  simp [prependEvents]

theorem ingestLoop_nil (fail : Nat → Bool) (schema : List (String × ColType))
    (k : Nat) (first : Bool) (db : Option Table) (total : Nat) :
    ingestLoop fail schema [] k first db total = ⟨db, total, [], none⟩ := by
  simp [ingestLoop]

/-- After the first chunk the loop is in steady state: consuming a prefix of
chunks that all coerce and whose appends all succeed appends their rows in
order, adds their row counts, and emits their progress events. -/
theorem ingestLoop_steady (fail : Nat → Bool) (schema : List (String × ColType)) :
    ∀ (pre rest : List (List (List String))) (bs : List (List (List Value)))
      (k : Nat) (t : Table) (total : Nat),
      coerceChunks schema pre = some bs →
      (∀ j, j < pre.length → fail (k + j) = false) →
      ingestLoop fail schema (pre ++ rest) k false (some t) total =
        prependEvents (progressEvents total (bs.map List.length))
          (ingestLoop fail schema rest (k + pre.length) false
            (some ⟨t.ncols, t.rows ++ bs.flatten⟩) (total + sumLens bs)) := by
  intro pre
  induction pre with
  | nil =>
    intro rest bs k t total hco hfail
    simp only [coerceChunks] at hco
    cases hco
    simp [progressEvents, prependEvents_nil, sumLens]
  | cons c pre ih =>
    intro rest bs k t total hco hfail
    simp only [coerceChunks] at hco
    cases hc : coerceChunk schema c with
    | error e => rw [hc] at hco; cases hco
    | ok b =>
      rw [hc] at hco
      cases hcs : coerceChunks schema pre with
      | none => rw [hcs] at hco; cases hco
      | some bs0 =>
        rw [hcs] at hco
        cases hco
        have hk : fail k = false := by
          have := hfail 0 (by simp)
          simpa using this
        show ingestLoop fail schema (c :: (pre ++ rest)) k false (some t) total = _
        simp only [ingestLoop, hc, hk, Bool.false_eq_true, if_false, appendBatchOpt,
          appendBatch]
        have ih1 := ih rest bs0 (k + 1) ⟨t.ncols, t.rows ++ b⟩ (total + b.length) hcs
          (by
            intro j hj
            have := hfail (j + 1) (by simp; omega)
            have e : k + (j + 1) = k + 1 + j := by omega
            rw [e] at this
            exact this)
        rw [ih1]
        have e1 : k + 1 + pre.length = k + (pre.length + 1) := by omega
        have e2 : t.rows ++ b ++ bs0.flatten = t.rows ++ (b :: bs0).flatten := by
          simp [List.flatten_cons, List.append_assoc]
        have e3 : total + b.length + sumLens bs0 = total + sumLens (b :: bs0) := by
          simp [sumLens]
          omega
        simp only [prependEvents, List.length_cons, e1, e2, e3, List.map_cons,
          progressEvents, List.cons_append]

/-- Whatever happens downstream, the loop in steady state only ever appends:
the final table (when the table name still resolves) extends the input
table's rows and keeps its declared column count. -/
theorem ingestLoop_db_extend (fail : Nat → Bool) (schema : List (String × ColType)) :
    ∀ (chunks : List (List (List String))) (k : Nat) (t : Table) (total : Nat),
      ∃ s, (ingestLoop fail schema chunks k false (some t) total).db
        = some ⟨t.ncols, t.rows ++ s⟩ := by
  intro chunks
  induction chunks with
  | nil =>
    intro k t total
    exact ⟨[], by simp [ingestLoop_nil]⟩
  | cons c cs ih =>
    intro k t total
    cases hc : coerceChunk schema c with
    | error e =>
      refine ⟨[], ?_⟩
      simp [ingestLoop, hc]
    | ok b =>
      cases hk : fail k with
      | true =>
        refine ⟨[], ?_⟩
        simp [ingestLoop, hc, hk]
      | false =>
        rcases ih (k + 1) ⟨t.ncols, t.rows ++ b⟩ (total + b.length) with ⟨s, hs⟩
        refine ⟨b ++ s, ?_⟩
        simp only [ingestLoop, hc, hk, Bool.false_eq_true, if_false, appendBatchOpt,
          appendBatch]
        rw [hs]
        simp [List.append_assoc]

/-- In any run of the loop, the progress events are exactly the running sums
of the appended batch sizes starting from the incoming total, and the final
counter is the incoming total plus the appended row counts. -/
theorem ingestLoop_events_invariant (fail : Nat → Bool) (schema : List (String × ColType)) :
    ∀ (chunks : List (List (List String))) (k : Nat) (first : Bool)
      (db : Option Table) (total : Nat),
      (ingestLoop fail schema chunks k first db total).events
          = progressEvents total
              ((ingestLoop fail schema chunks k first db total).events.map Prod.fst) ∧
      (ingestLoop fail schema chunks k first db total).total
          = total + ((ingestLoop fail schema chunks k first db total).events.map Prod.fst).sum := by
  intro chunks
  induction chunks with
  | nil =>
    intro k first db total
    simp [ingestLoop_nil, progressEvents]
  | cons c cs ih =>
    intro k first db total
    cases hc : coerceChunk schema c with
    | error e =>
      simp [ingestLoop, hc, progressEvents]
    | ok b =>
      cases hk : fail k with
      | true =>
        simp [ingestLoop, hc, hk, progressEvents]
      | false =>
        have ih1 := ih (k + 1) false
          (some (appendBatchOpt schema.length
            (if first then some (createTableReplace schema.length) else db) b))
          (total + b.length)
        simp only [ingestLoop, hc, hk, Bool.false_eq_true, if_false]
        constructor
        · simp only [List.map_cons, progressEvents]
          rw [← ih1.1]
        · rw [ih1.2]
          simp
          omega

/-- One unfolding of the loop at the first chunk when that chunk coerces:
the destination table is created (replace semantics) before the append is
attempted. -/
theorem ingestLoop_first_ok (fail : Nat → Bool) (schema : List (String × ColType))
    (c : List (List String)) (rest : List (List (List String)))
    (b : List (List Value)) (k : Nat) (db0 : Option Table) (total : Nat)
    (hc : coerceChunk schema c = Except.ok b) :
    ingestLoop fail schema (c :: rest) k true db0 total =
      if fail k then
        ⟨some (createTableReplace schema.length), total, [], some LoadError.storeError⟩
      else
        prependEvents [(b.length, total + b.length)]
          (ingestLoop fail schema rest (k + 1) false
            (some ⟨schema.length + 1, b⟩) (total + b.length)) := by
  cases hk : fail k with
  | true => simp [ingestLoop, hc, hk]
  | false =>
    simp [ingestLoop, hc, hk, appendBatchOpt, appendBatch, createTableReplace,
      prependEvents]

/-- One unfolding of the loop at the first chunk when pulling that chunk
fails coercion: the run stops before the loop body, so the pre-existing
table state and the counter are untouched. -/
theorem ingestLoop_first_bad (fail : Nat → Bool) (schema : List (String × ColType))
    (c : List (List String)) (rest : List (List (List String)))
    (sv : SchemaViolation) (k : Nat) (first : Bool) (db0 : Option Table) (total : Nat)
    (hc : coerceChunk schema c = Except.error sv) :
    ingestLoop fail schema (c :: rest) k first db0 total =
      ⟨db0, total, [], some (LoadError.schemaViolation sv)⟩ := by
  simp [ingestLoop, hc]

/-! ## Top-level run characterizations -/

/-- A source with no data rows produces no chunks, so the whole run is a
no-op: table state untouched, zero total, no events, no error. -/
theorem ingest_empty_run (fail : Nat → Bool) (schema : List (String × ColType))
    (n : Nat) (db0 : Option Table) (src : Source) (h : src.rows = []) :
    ingest_data_in_chunks fail schema n db0 src = ⟨db0, 0, [], none⟩ := by
  simp [ingest_data_in_chunks, h, chunksOf_nil, ingestLoop_nil]

/-- A fully successful run on a source with at least one data row: the table
is created with the schema's columns plus the index column, holds exactly
the coerced batches' rows in order, and the counter and events are the batch
sizes and their running sums. The result does not depend on `db0`. -/
theorem ingest_success_run (fail : Nat → Bool) (schema : List (String × ColType))
    (n : Nat) (db0 : Option Table) (src : Source) (bs : List (List (List Value)))
    (hrows : src.rows ≠ [])
    (hco : coerceChunks schema (chunksOf n src.rows) = some bs)
    (hfail : ∀ j, fail j = false) :
    ingest_data_in_chunks fail schema n db0 src =
      ⟨some ⟨schema.length + 1, bs.flatten⟩, sumLens bs,
       progressEvents 0 (bs.map List.length), none⟩ := by
  rcases hchunks : chunksOf n src.rows with _ | ⟨c, rest⟩
  · exact absurd ((chunksOf_eq_nil_iff n src.rows).mp hchunks) hrows
  · rw [hchunks] at hco
    simp only [coerceChunks] at hco
    cases hc : coerceChunk schema c with
    | error e => rw [hc] at hco; cases hco
    | ok b =>
      rw [hc] at hco
      cases hcs : coerceChunks schema rest with
      | none => rw [hcs] at hco; cases hco
      | some bs0 =>
        rw [hcs] at hco
        cases hco
        unfold ingest_data_in_chunks
        rw [hchunks, ingestLoop_first_ok fail schema c rest b 0 db0 0 hc, hfail 0,
          if_neg (by simp)]
        have hsteady := ingestLoop_steady fail schema rest [] bs0 1
          ⟨schema.length + 1, b⟩ (0 + b.length) hcs (fun j hj => hfail (1 + j))
        rw [List.append_nil] at hsteady
        rw [hsteady, ingestLoop_nil, prependEvents_append]
        simp only [prependEvents]
        congr 1
        · simp [sumLens_cons]
        · simp [progressEvents]

/-- Consuming a prefix of chunks that all coerce and whose appends all
succeed: afterwards the run continues in steady state on the remaining
chunks from the table holding exactly the prefix's rows. For an empty
prefix this is just the unfolded start of the run. -/
theorem ingest_front_run (fail : Nat → Bool) (schema : List (String × ColType))
    (n : Nat) (db0 : Option Table) (src : Source)
    (pre rest : List (List (List String))) (bs : List (List (List Value)))
    (hsplit : chunksOf n src.rows = pre ++ rest)
    (hpre : pre ≠ [])
    (hco : coerceChunks schema pre = some bs)
    (hfail : ∀ j, j < pre.length → fail j = false) :
    ingest_data_in_chunks fail schema n db0 src =
      prependEvents (progressEvents 0 (bs.map List.length))
        (ingestLoop fail schema rest pre.length false
          (some ⟨schema.length + 1, bs.flatten⟩) (sumLens bs)) := by
  rcases pre with _ | ⟨c, pre0⟩
  · exact absurd rfl hpre
  · simp only [coerceChunks] at hco
    cases hc : coerceChunk schema c with
    | error e => rw [hc] at hco; cases hco
    | ok b =>
      rw [hc] at hco
      cases hcs : coerceChunks schema pre0 with
      | none => rw [hcs] at hco; cases hco
      | some bs0 =>
        rw [hcs] at hco
        cases hco
        unfold ingest_data_in_chunks
        rw [hsplit]
        show ingestLoop fail schema (c :: (pre0 ++ rest)) 0 true db0 0 = _
        rw [ingestLoop_first_ok fail schema c (pre0 ++ rest) b 0 db0 0 hc,
          hfail 0 (by simp), if_neg (by simp)]
        have hsteady := ingestLoop_steady fail schema pre0 rest bs0 1
          ⟨schema.length + 1, b⟩ (0 + b.length) hcs
          (by
            intro j hj
            exact hfail (1 + j) (by simp; omega))
        rw [hsteady, prependEvents_append]
        have e1 : 1 + pre0.length = (c :: pre0).length := by simp; omega
        have e2 : (⟨schema.length + 1, b⟩ : Table).rows ++ bs0.flatten
            = (b :: bs0).flatten := by simp [List.flatten_cons]
        have e3 : 0 + b.length + sumLens bs0 = sumLens (b :: bs0) := by
          simp [sumLens]
        have e4 : (b.length, 0 + b.length) :: progressEvents (0 + b.length)
              (bs0.map List.length)
            = progressEvents 0 ((b :: bs0).map List.length) := by
          simp [progressEvents, List.map_cons]
        rw [e2, e3]
        simp only [List.singleton_append, e4]
        rw [e1]

/-- A run whose first store failure hits the append of batch `pre.length`
(all earlier appends succeed, all chunks up to and including the failing one
coerce): the table contains exactly the earlier batches' rows, the counter
keeps its pre-failure value, only the earlier batches' events were emitted,
and the run stops with the store error. -/
theorem ingest_storefail_run (fail : Nat → Bool) (schema : List (String × ColType))
    (n : Nat) (db0 : Option Table) (src : Source)
    (pre rest : List (List (List String))) (cm : List (List String))
    (bs : List (List (List Value))) (bm : List (List Value))
    (hsplit : chunksOf n src.rows = pre ++ cm :: rest)
    (hco : coerceChunks schema pre = some bs)
    (hcm : coerceChunk schema cm = Except.ok bm)
    (hfail : ∀ j, j < pre.length → fail j = false)
    (hk : fail pre.length = true) :
    ingest_data_in_chunks fail schema n db0 src =
      ⟨some ⟨schema.length + 1, bs.flatten⟩, sumLens bs,
       progressEvents 0 (bs.map List.length), some LoadError.storeError⟩ := by
  rcases pre with _ | ⟨c, pre0⟩
  · simp only [coerceChunks] at hco
    cases hco
    unfold ingest_data_in_chunks
    rw [hsplit]
    simp only [List.nil_append]
    rw [ingestLoop_first_ok fail schema cm rest bm 0 db0 0 hcm]
    simp only [List.length_nil] at hk
    rw [hk, if_pos rfl]
    simp [createTableReplace, sumLens_nil, progressEvents]
  · rw [ingest_front_run fail schema n db0 src (c :: pre0) (cm :: rest) bs hsplit
      (by simp) hco hfail]
    have hk1 : fail (pre0.length + 1) = true := by simpa using hk
    have hstep : ingestLoop fail schema (cm :: rest) (c :: pre0).length false
        (some ⟨schema.length + 1, bs.flatten⟩) (sumLens bs) =
        ⟨some ⟨schema.length + 1, bs.flatten⟩, sumLens bs, [],
         some LoadError.storeError⟩ := by
      simp [ingestLoop, hcm, hk1]
    rw [hstep]
    simp [prependEvents]

/-- If the append of batch `pre.length` succeeds (all earlier appends
succeed, all chunks up to and including it coerce), then whatever happens
afterwards, every row of that batch is in the final table, after the earlier
batches' rows. -/
theorem ingest_appendok_extend (fail : Nat → Bool) (schema : List (String × ColType))
    (n : Nat) (db0 : Option Table) (src : Source)
    (pre rest : List (List (List String))) (cm : List (List String))
    (bs : List (List (List Value))) (bm : List (List Value))
    (hsplit : chunksOf n src.rows = pre ++ cm :: rest)
    (hco : coerceChunks schema pre = some bs)
    (hcm : coerceChunk schema cm = Except.ok bm)
    (hfail : ∀ j, j < pre.length → fail j = false)
    (hk : fail pre.length = false) :
    ∃ s, (ingest_data_in_chunks fail schema n db0 src).db
      = some ⟨schema.length + 1, bs.flatten ++ (bm ++ s)⟩ := by
  rcases pre with _ | ⟨c, pre0⟩
  · simp only [coerceChunks] at hco
    cases hco
    unfold ingest_data_in_chunks
    rw [hsplit]
    simp only [List.nil_append]
    rw [ingestLoop_first_ok fail schema cm rest bm 0 db0 0 hcm]
    simp only [List.length_nil] at hk
    rw [hk, if_neg (by simp)]
    rcases ingestLoop_db_extend fail schema rest 1 ⟨schema.length + 1, bm⟩
      (0 + bm.length) with ⟨s, hs⟩
    refine ⟨s, ?_⟩
    simp only [prependEvents]
    rw [hs]
    simp
  · rw [ingest_front_run fail schema n db0 src (c :: pre0) (cm :: rest) bs hsplit
      (by simp) hco hfail]
    have hT : appendBatchOpt schema.length (some ⟨schema.length + 1, bs.flatten⟩) bm
        = ⟨schema.length + 1, bs.flatten ++ bm⟩ := by
      simp [appendBatchOpt, appendBatch]
    rcases ingestLoop_db_extend fail schema rest ((c :: pre0).length + 1)
      ⟨schema.length + 1, bs.flatten ++ bm⟩ (sumLens bs + bm.length) with ⟨s, hs⟩
    refine ⟨s, ?_⟩
    simp only [prependEvents]
    simp only [ingestLoop, hcm, hk, Bool.false_eq_true, if_false, hT]
    rw [hs]
    simp [List.append_assoc]

/-- A run whose first failure is a coercion failure when pulling batch
`pre.length` (all earlier chunks coerce and their appends succeed): the run
stops with the schema violation before touching the table again — the table
holds exactly the earlier batches' rows (or is entirely untouched when the
very first pull fails), and the counter keeps its value. -/
theorem ingest_coercefail_run (fail : Nat → Bool) (schema : List (String × ColType))
    (n : Nat) (db0 : Option Table) (src : Source)
    (pre rest : List (List (List String))) (cm : List (List String))
    (bs : List (List (List Value))) (sv : SchemaViolation)
    (hsplit : chunksOf n src.rows = pre ++ cm :: rest)
    (hco : coerceChunks schema pre = some bs)
    (hcm : coerceChunk schema cm = Except.error sv)
    (hfail : ∀ j, j < pre.length → fail j = false) :
    ingest_data_in_chunks fail schema n db0 src =
      ⟨if pre = [] then db0 else some ⟨schema.length + 1, bs.flatten⟩,
       sumLens bs, progressEvents 0 (bs.map List.length),
       some (LoadError.schemaViolation sv)⟩ := by
  rcases pre with _ | ⟨c, pre0⟩
  · simp only [coerceChunks] at hco
    cases hco
    unfold ingest_data_in_chunks
    rw [hsplit]
    simp only [List.nil_append]
    rw [ingestLoop_first_bad fail schema cm rest sv 0 true db0 0 hcm]
    simp [sumLens_nil, progressEvents]
  · rw [ingest_front_run fail schema n db0 src (c :: pre0) (cm :: rest) bs hsplit
      (by simp) hco hfail]
    rw [ingestLoop_first_bad fail schema cm rest sv (c :: pre0).length false
      (some ⟨schema.length + 1, bs.flatten⟩) (sumLens bs) hcm]
    simp [prependEvents]

/-- A row whose first non-coercible cell sits at column `j` makes row
coercion fail, reporting that column's name and the raw value. -/
theorem coerceCells_error_at :
    ∀ (schema : List (String × ColType)) (r : List String) (j : Nat)
      (hj : j < schema.length) (hr : j < r.length),
      coerceCell (schema.get ⟨j, hj⟩).2 (r.get ⟨j, hr⟩) = none →
      (∀ (i : Nat) (hi : i < schema.length) (hri : i < r.length), i < j →
        (coerceCell (schema.get ⟨i, hi⟩).2 (r.get ⟨i, hri⟩)).isSome = true) →
      coerceCells schema r
        = Except.error ((schema.get ⟨j, hj⟩).1, r.get ⟨j, hr⟩) := by
  intro schema
  induction schema with
  | nil =>
    intro r j hj hr hbad hgood
    simp at hj
  | cons col schema ih =>
    intro r j hj hr hbad hgood
    match r with
    | [] => simp at hr
    | cell :: cells =>
      match j with
      | 0 =>
        simp only [List.get] at hbad
        simp only [coerceCells, hbad]
        rfl
      | j + 1 =>
        have h0 : (coerceCell col.2 cell).isSome = true := by
          have := hgood 0 (by simp) (by simp) (by omega)
          simpa using this
        rcases Option.isSome_iff_exists.mp h0 with ⟨v0, hv0⟩
        have htail := ih cells j (by simpa using hj) (by simpa using hr)
          (by simpa using hbad)
          (by
            intro i hi hri hij
            have := hgood (i + 1) (by simpa using hi) (by simpa using hri)
              (by omega)
            simpa using this)
        simp only [coerceCells, hv0, htail]
        simp [List.get]

/-- A chunk whose first row with a non-coercible cell is row `i` makes chunk
coercion fail with a `SchemaViolation` whose row offset is `i` (shifted by
the starting offset). -/
theorem coerceRows_error_at (schema : List (String × ColType)) :
    ∀ (rs : List (List String)) (i0 i : Nat) (hi : i < rs.length)
      (cname raw : String),
      coerceCells schema (rs.get ⟨i, hi⟩) = Except.error (cname, raw) →
      (∀ (i2 : Nat) (h2 : i2 < rs.length), i2 < i →
        ∃ v, coerceCells schema (rs.get ⟨i2, h2⟩) = Except.ok v) →
      coerceRows schema rs i0 = Except.error ⟨cname, i0 + i, raw⟩ := by
  intro rs
  induction rs with
  | nil =>
    intro i0 i hi cname raw hbad hgood
    simp at hi
  | cons r0 rs ih =>
    intro i0 i hi cname raw hbad hgood
    match i with
    | 0 =>
      simp only [List.get] at hbad
      simp only [coerceRows, hbad]
      simp
    | i + 1 =>
      rcases hgood 0 (by simp) (by omega) with ⟨v0, hv0⟩
      simp only [List.get] at hv0
      have htail := ih (i0 + 1) i (by simpa using hi) cname raw
        (by simpa [List.get] using hbad)
        (by
          intro i2 h2 hlt
          rcases hgood (i2 + 1) (by simpa using h2) (by omega) with ⟨v, hv⟩
          exact ⟨v, by simpa [List.get] using hv⟩)
      simp only [coerceRows, hv0, htail]
      have e : i0 + 1 + i = i0 + (i + 1) := by omega
      rw [e]

/-- Steady-state width invariant: if the table's declared column count and
row widths satisfy the schema relation and every raw row has one field per
schema column, any continuation of the loop preserves them. -/
theorem ingestLoop_table_width (fail : Nat → Bool) (schema : List (String × ColType)) :
    ∀ (chunks : List (List (List String))) (k : Nat) (t : Table) (total : Nat),
      (∀ c ∈ chunks, ∀ r ∈ c, r.length = schema.length) →
      (∀ row ∈ t.rows, row.length = schema.length) →
      ∃ t2, (ingestLoop fail schema chunks k false (some t) total).db = some t2 ∧
        t2.ncols = t.ncols ∧ ∀ row ∈ t2.rows, row.length = schema.length := by
  intro chunks
  induction chunks with
  | nil =>
    intro k t total hw hrows
    exact ⟨t, by simp [ingestLoop_nil], rfl, hrows⟩
  | cons c cs ih =>
    intro k t total hw hrows
    cases hc : coerceChunk schema c with
    | error e =>
      refine ⟨t, ?_, rfl, hrows⟩
      simp [ingestLoop, hc]
    | ok b =>
      cases hk : fail k with
      | true =>
        refine ⟨t, ?_, rfl, hrows⟩
        simp [ingestLoop, hc, hk]
      | false =>
        have hbw : ∀ row ∈ b, row.length = schema.length := by
          intro row hrow
          rcases coerceRows_mem_rev schema c 0 b hc row hrow with ⟨r, hr1, hr2⟩
          have := coerceCells_length schema r row hr2
          have hrl := hw c (List.mem_cons_self _ _) r hr1
          omega
        have ih1 := ih (k + 1) ⟨t.ncols, t.rows ++ b⟩ (total + b.length)
          (fun c2 hc2 => hw c2 (List.mem_cons_of_mem _ hc2))
          (by
            intro row hrow
            rcases List.mem_append.mp hrow with h | h
            · exact hrows row h
            · exact hbw row h)
        rcases ih1 with ⟨t2, h1, h2, h3⟩
        refine ⟨t2, ?_, h2, h3⟩
        simp only [ingestLoop, hc, hk, Bool.false_eq_true, if_false, appendBatchOpt,
          appendBatch]
        exact h1

/-! ## The claims -/

/-- Claim C1: Row conservation — for every valid source (all chunks coerce)
with every append succeeding, `ingest_data_in_chunks` runs to completion and
the final `total_rows_processed` equals the sum of the lengths of all
batches produced, which equals the number of data rows in the source
excluding the header. -/
theorem row_conservation (fail : Nat → Bool) (schema : List (String × ColType))
    (n : Nat) (db0 : Option Table) (src : Source) (bs : List (List (List Value)))
    (hco : coerceChunks schema (chunksOf n src.rows) = some bs)
    (hfail : ∀ j, fail j = false) :
    (ingest_data_in_chunks fail schema n db0 src).err = none ∧
    (ingest_data_in_chunks fail schema n db0 src).total = sumLens bs ∧
    (ingest_data_in_chunks fail schema n db0 src).total = src.rows.length := by
  have hsum : sumLens bs = src.rows.length := by
    unfold sumLens
    rw [coerceChunks_map_length schema _ bs hco, chunksOf_sum_length]
  by_cases h : src.rows = []
  · have hbs : bs = [] := by
      rw [h, chunksOf_nil] at hco
      simp only [coerceChunks] at hco
      cases hco
      rfl
    rw [ingest_empty_run fail schema n db0 src h]
    subst hbs
    exact ⟨rfl, rfl, by simp [h]⟩
  · rw [ingest_success_run fail schema n db0 src bs h hco hfail]
    exact ⟨rfl, rfl, hsum⟩

theorem row_conservation_witness :
    (ingest_data_in_chunks (fun _ => false) [("a", ColType.int64)] 2 none
      ⟨["a"], [["1"], ["2"], ["3"]]⟩).err = none ∧
    (ingest_data_in_chunks (fun _ => false) [("a", ColType.int64)] 2 none
      ⟨["a"], [["1"], ["2"], ["3"]]⟩).total
        = sumLens [[[Value.intVal 1], [Value.intVal 2]], [[Value.intVal 3]]] ∧
    (ingest_data_in_chunks (fun _ => false) [("a", ColType.int64)] 2 none
      ⟨["a"], [["1"], ["2"], ["3"]]⟩).total = 3 :=
  row_conservation (fun _ => false) [("a", ColType.int64)] 2 none
    ⟨["a"], [["1"], ["2"], ["3"]]⟩
    [[[Value.intVal 1], [Value.intVal 2]], [[Value.intVal 3]]]
    (by decide) (fun _ => rfl)

/-- Claim C2: Per-batch append atomicity — with the appends of batches
`0..k-1` all succeeding and every chunk through batch `k` coercing, if the
store append of batch `k` fails then the destination table contains exactly
the rows of batches `0..k-1` and no row of batch `k` (and the counter is
their row count); if that append succeeds, all rows of batch `k` sit in the
final table right after them. -/
theorem append_atomicity (fail : Nat → Bool) (schema : List (String × ColType))
    (n : Nat) (db0 : Option Table) (src : Source)
    (pre rest : List (List (List String))) (cm : List (List String))
    (bs : List (List (List Value))) (bm : List (List Value))
    (hsplit : chunksOf n src.rows = pre ++ cm :: rest)
    (hco : coerceChunks schema pre = some bs)
    (hcm : coerceChunk schema cm = Except.ok bm)
    (hfail : ∀ j, j < pre.length → fail j = false) :
    (fail pre.length = true →
      (ingest_data_in_chunks fail schema n db0 src).db
          = some ⟨schema.length + 1, bs.flatten⟩ ∧
      (ingest_data_in_chunks fail schema n db0 src).total = sumLens bs) ∧
    (fail pre.length = false →
      ∃ s, (ingest_data_in_chunks fail schema n db0 src).db
          = some ⟨schema.length + 1, bs.flatten ++ (bm ++ s)⟩) := by
  constructor
  · intro hk
    rw [ingest_storefail_run fail schema n db0 src pre rest cm bs bm hsplit hco hcm
      hfail hk]
    exact ⟨rfl, rfl⟩
  · intro hk
    exact ingest_appendok_extend fail schema n db0 src pre rest cm bs bm hsplit hco
      hcm hfail hk

theorem append_atomicity_witness :
    (ingest_data_in_chunks (fun k => decide (k = 1)) [("a", ColType.int64)] 1 none
      ⟨["a"], [["1"], ["2"]]⟩).db = some ⟨2, [[Value.intVal 1]]⟩ ∧
    (ingest_data_in_chunks (fun k => decide (k = 1)) [("a", ColType.int64)] 1 none
      ⟨["a"], [["1"], ["2"]]⟩).total = 1 :=
  (append_atomicity (fun k => decide (k = 1)) [("a", ColType.int64)] 1 none
    ⟨["a"], [["1"], ["2"]]⟩ [[["1"]]] [] [["2"]] [[[Value.intVal 1]]]
    [[Value.intVal 2]] (by decide) (by decide) rfl
    (by
      intro j hj
      match j with
      | 0 => rfl
      | j + 1 => exact absurd hj (by simp)) ).1 (by decide)

/-- Claim C3: Replace semantics / idempotence of table creation — running
the load twice against the same table name leaves exactly one load's data
present: whatever table the first run left behind, the second run's
first-batch create-table step replaces it, and the final table holds exactly
the second run's batches. -/
theorem table_replace_idempotence (fail1 fail2 : Nat → Bool)
    (schema : List (String × ColType)) (n : Nat) (db0 : Option Table)
    (src1 src2 : Source) (bs2 : List (List (List Value)))
    (hrows2 : src2.rows ≠ [])
    (hco2 : coerceChunks schema (chunksOf n src2.rows) = some bs2)
    (hfail2 : ∀ j, fail2 j = false) :
    (ingest_data_in_chunks fail2 schema n
        (ingest_data_in_chunks fail1 schema n db0 src1).db src2).db
      = some ⟨schema.length + 1, bs2.flatten⟩ := by
  rw [ingest_success_run fail2 schema n _ src2 bs2 hrows2 hco2 hfail2]

theorem table_replace_idempotence_witness :
    (ingest_data_in_chunks (fun _ => false) [("a", ColType.int64)] 5
        (ingest_data_in_chunks (fun _ => false) [("a", ColType.int64)] 5 none
          ⟨["a"], [["7"]]⟩).db
        ⟨["a"], [["1"], ["2"]]⟩).db
      = some ⟨2, [[Value.intVal 1], [Value.intVal 2]]⟩ :=
  table_replace_idempotence (fun _ => false) (fun _ => false)
    [("a", ColType.int64)] 5 none ⟨["a"], [["7"]]⟩ ⟨["a"], [["1"], ["2"]]⟩
    [[[Value.intVal 1], [Value.intVal 2]]]
    (by decide) (by decide) (fun _ => rfl)

/-- Claim C4: Progress Counter invariant — in every run (any source, any
chunking, any coercion outcomes, any store failures) the counter starts at
zero, each progress event records the batch's row count and a cumulative
value equal to the running sum of the row counts of the batches successfully
appended so far, and the final counter is the sum of exactly those row
counts. -/
theorem progress_counter_invariant (fail : Nat → Bool)
    (schema : List (String × ColType)) (n : Nat) (db0 : Option Table)
    (src : Source) :
    (ingest_data_in_chunks fail schema n db0 src).events
        = progressEvents 0
            ((ingest_data_in_chunks fail schema n db0 src).events.map Prod.fst) ∧
    (ingest_data_in_chunks fail schema n db0 src).total
        = ((ingest_data_in_chunks fail schema n db0 src).events.map Prod.fst).sum := by
  have h := ingestLoop_events_invariant fail schema (chunksOf n src.rows) 0 true db0 0
  unfold ingest_data_in_chunks
  refine ⟨h.1, ?_⟩
  rw [h.2]
  omega

/-- Claim C5: Fail-fast on append failure — when the append of batch
`pre.length` fails (all earlier appends succeeding and all chunks through it
coercing), the counter retains its pre-failure value, the run stops with the
store error, and the only progress events (hence the only appends) are those
of the earlier batches: no later batch is appended. -/
theorem fail_fast_on_append (fail : Nat → Bool) (schema : List (String × ColType))
    (n : Nat) (db0 : Option Table) (src : Source)
    (pre rest : List (List (List String))) (cm : List (List String))
    (bs : List (List (List Value))) (bm : List (List Value))
    (hsplit : chunksOf n src.rows = pre ++ cm :: rest)
    (hco : coerceChunks schema pre = some bs)
    (hcm : coerceChunk schema cm = Except.ok bm)
    (hfail : ∀ j, j < pre.length → fail j = false)
    (hk : fail pre.length = true) :
    (ingest_data_in_chunks fail schema n db0 src).total = sumLens bs ∧
    (ingest_data_in_chunks fail schema n db0 src).err = some LoadError.storeError ∧
    (ingest_data_in_chunks fail schema n db0 src).events
        = progressEvents 0 (bs.map List.length) ∧
    (ingest_data_in_chunks fail schema n db0 src).db
        = some ⟨schema.length + 1, bs.flatten⟩ := by
  rw [ingest_storefail_run fail schema n db0 src pre rest cm bs bm hsplit hco hcm
    hfail hk]
  exact ⟨rfl, rfl, rfl, rfl⟩

theorem fail_fast_on_append_witness :
    (ingest_data_in_chunks (fun k => decide (k = 1)) [("a", ColType.int64)] 1 none
      ⟨["a"], [["1"], ["2"], ["3"]]⟩).total = 1 ∧
    (ingest_data_in_chunks (fun k => decide (k = 1)) [("a", ColType.int64)] 1 none
      ⟨["a"], [["1"], ["2"], ["3"]]⟩).err = some LoadError.storeError ∧
    (ingest_data_in_chunks (fun k => decide (k = 1)) [("a", ColType.int64)] 1 none
      ⟨["a"], [["1"], ["2"], ["3"]]⟩).events = progressEvents 0 [1] ∧
    (ingest_data_in_chunks (fun k => decide (k = 1)) [("a", ColType.int64)] 1 none
      ⟨["a"], [["1"], ["2"], ["3"]]⟩).db = some ⟨2, [[Value.intVal 1]]⟩ :=
  fail_fast_on_append (fun k => decide (k = 1)) [("a", ColType.int64)] 1 none
    ⟨["a"], [["1"], ["2"], ["3"]]⟩ [[["1"]]] [[["3"]]] [["2"]]
    [[[Value.intVal 1]]] [[Value.intVal 2]]
    (by decide) (by decide) rfl
    (by
      intro j hj
      match j with
      | 0 => rfl
      | j + 1 => exact absurd hj (by simp))
    (by decide)

/-- Claim C6: SchemaViolation on non-coercible cells — when batch
`pre.length` contains a cell that cannot be coerced to its declared type
(the first such cell sitting at row `i`, column `j`), the load fails with
a `SchemaViolation` identifying the column name, the row offset within the
batch, and the raw value, and no row of that batch reaches the destination
table: the table holds exactly the earlier batches' rows (or is untouched
when the very first batch fails). -/
theorem schema_violation_rejects_batch (fail : Nat → Bool)
    (schema : List (String × ColType)) (n : Nat) (db0 : Option Table) (src : Source)
    (pre rest : List (List (List String))) (cm : List (List String))
    (bs : List (List (List Value))) (i j : Nat)
    (hi : i < cm.length) (hj : j < schema.length)
    (hr : j < (cm.get ⟨i, hi⟩).length)
    (hsplit : chunksOf n src.rows = pre ++ cm :: rest)
    (hco : coerceChunks schema pre = some bs)
    (hfail : ∀ j2, j2 < pre.length → fail j2 = false)
    (hbad : coerceCell (schema.get ⟨j, hj⟩).2 ((cm.get ⟨i, hi⟩).get ⟨j, hr⟩) = none)
    (hgoodcell : ∀ (j2 : Nat) (h2 : j2 < schema.length)
      (hr2 : j2 < (cm.get ⟨i, hi⟩).length), j2 < j →
      (coerceCell (schema.get ⟨j2, h2⟩).2 ((cm.get ⟨i, hi⟩).get ⟨j2, hr2⟩)).isSome = true)
    (hgoodrow : ∀ (i2 : Nat) (h2 : i2 < cm.length), i2 < i →
      ∃ v, coerceCells schema (cm.get ⟨i2, h2⟩) = Except.ok v) :
    (ingest_data_in_chunks fail schema n db0 src).err
        = some (LoadError.schemaViolation
            ⟨(schema.get ⟨j, hj⟩).1, i, (cm.get ⟨i, hi⟩).get ⟨j, hr⟩⟩) ∧
    (ingest_data_in_chunks fail schema n db0 src).db
        = (if pre = [] then db0 else some ⟨schema.length + 1, bs.flatten⟩) ∧
    (ingest_data_in_chunks fail schema n db0 src).total = sumLens bs := by
  have hrow : coerceCells schema (cm.get ⟨i, hi⟩)
      = Except.error ((schema.get ⟨j, hj⟩).1, (cm.get ⟨i, hi⟩).get ⟨j, hr⟩) :=
    coerceCells_error_at schema (cm.get ⟨i, hi⟩) j hj hr hbad hgoodcell
  have hcm : coerceChunk schema cm
      = Except.error ⟨(schema.get ⟨j, hj⟩).1, i, (cm.get ⟨i, hi⟩).get ⟨j, hr⟩⟩ := by
    have := coerceRows_error_at schema cm 0 i hi
      (schema.get ⟨j, hj⟩).1 ((cm.get ⟨i, hi⟩).get ⟨j, hr⟩) hrow hgoodrow
    simpa [coerceChunk] using this
  rw [ingest_coercefail_run fail schema n db0 src pre rest cm bs _ hsplit hco hcm
    hfail]
  exact ⟨rfl, rfl, rfl⟩

theorem schema_violation_rejects_batch_witness :
    (ingest_data_in_chunks (fun _ => false) [("a", ColType.int64)] 2 none
      ⟨["a"], [["1"], ["x"]]⟩).err
        = some (LoadError.schemaViolation ⟨"a", 1, "x"⟩) ∧
    (ingest_data_in_chunks (fun _ => false) [("a", ColType.int64)] 2 none
      ⟨["a"], [["1"], ["x"]]⟩).db = none ∧
    (ingest_data_in_chunks (fun _ => false) [("a", ColType.int64)] 2 none
      ⟨["a"], [["1"], ["x"]]⟩).total = 0 :=
  schema_violation_rejects_batch (fun _ => false) [("a", ColType.int64)] 2 none
    ⟨["a"], [["1"], ["x"]]⟩ [] [] [["1"], ["x"]] [] 1 0
    (by decide) (by decide) (by decide) (by decide) rfl
    (fun j2 hj2 => absurd hj2 (by simp))
    rfl
    (fun j2 h2 hr2 hlt => absurd hlt (by simp))
    (by
      intro i2 h2 hlt
      match i2 with
      | 0 => exact ⟨[Value.intVal 1], rfl⟩
      | i2 + 1 => exact absurd hlt (by simp))

/-- Claim C7: Batch size bound — for every positive chunk size and every
source, every batch produced by the chunked reader has at most `chunk_size`
rows, and every batch except possibly the last has exactly `chunk_size`
rows. -/
theorem batch_size_bound (n : Nat) (hn : 0 < n) (rows : List (List String)) :
    (∀ c ∈ chunksOf n rows, c.length ≤ n) ∧
    (∀ c ∈ (chunksOf n rows).dropLast, c.length = n) :=
  ⟨chunksOf_length_le n hn rows, chunksOf_dropLast_length n hn rows⟩

theorem batch_size_bound_witness :
    0 < 2 ∧
    ((∀ c ∈ chunksOf 2 [["a"], ["b"], ["c"], ["d"], ["e"]], c.length ≤ 2) ∧
     (∀ c ∈ (chunksOf 2 [["a"], ["b"], ["c"], ["d"], ["e"]]).dropLast,
        c.length = 2)) :=
  ⟨by decide, batch_size_bound 2 (by decide) [["a"], ["b"], ["c"], ["d"], ["e"]]⟩

/-- Claim C8: Missing-marker handling — a row with an empty field in a
column declared as nullable integer or float coerces that cell to the
absent value `Value.missing` (not zero and not an error), and after a fully
successful load that coerced row, absent value included, is among the rows
stored in the destination table. -/
theorem missing_marker_preserved (fail : Nat → Bool)
    (schema : List (String × ColType)) (n : Nat) (db0 : Option Table)
    (src : Source) (bs : List (List (List Value))) (i j : Nat)
    (hi : i < src.rows.length) (hj : j < schema.length)
    (hr : j < (src.rows.get ⟨i, hi⟩).length)
    (hty : (schema.get ⟨j, hj⟩).2 = ColType.int64 ∨
      (schema.get ⟨j, hj⟩).2 = ColType.float64)
    (hcell : (src.rows.get ⟨i, hi⟩).get ⟨j, hr⟩ = "")
    (hco : coerceChunks schema (chunksOf n src.rows) = some bs)
    (hfail : ∀ k, fail k = false) :
    ∃ v, coerceCells schema (src.rows.get ⟨i, hi⟩) = Except.ok v ∧
      v.get? j = some Value.missing ∧
      v ∈ bs.flatten ∧
      (ingest_data_in_chunks fail schema n db0 src).db
        = some ⟨schema.length + 1, bs.flatten⟩ := by
  have hmem : src.rows.get ⟨i, hi⟩ ∈ (chunksOf n src.rows).flatten := by
    rw [chunksOf_flatten]
    exact List.get_mem _ _ _
  rcases List.mem_flatten.mp hmem with ⟨c, hc1, hc2⟩
  rcases coerceChunks_mem schema _ bs hco c hc1 with ⟨b, hb1, hb2⟩
  rcases coerceRows_mem schema c 0 b hb2 (src.rows.get ⟨i, hi⟩) hc2 with ⟨v, hv1, hv2⟩
  refine ⟨v, hv1, ?_, List.mem_flatten.mpr ⟨b, hb1, hv2⟩, ?_⟩
  · rw [coerceCells_get schema _ v hv1 j hj hr, hcell]
    rcases hty with h | h <;> rw [h] <;> rfl
  · have hne : src.rows ≠ [] := by
      intro h0
      rw [h0] at hi
      simp at hi
    rw [ingest_success_run fail schema n db0 src bs hne hco hfail]

theorem missing_marker_preserved_witness :
    ∃ v, coerceCells [("passenger_count", ColType.int64)]
        (([[""]] : List (List String)).get ⟨0, by decide⟩) = Except.ok v ∧
      v.get? 0 = some Value.missing ∧
      v ∈ ([[[Value.missing]]] : List (List (List Value))).flatten ∧
      (ingest_data_in_chunks (fun _ => false) [("passenger_count", ColType.int64)]
        1 none ⟨["passenger_count"], [[""]]⟩).db
          = some ⟨2, [[Value.missing]]⟩ :=
  missing_marker_preserved (fun _ => false) [("passenger_count", ColType.int64)]
    1 none ⟨["passenger_count"], [[""]]⟩ [[[Value.missing]]] 0 0
    (by decide) (by decide) (by decide) (Or.inl rfl) rfl (by decide)
    (fun _ => rfl)

/-- Claim C9: Index-column schema mismatch — in any load whose first batch
is produced (its chunk coerces), the table created by the first-chunk step
declares the schema's columns plus one extra column for the DataFrame index,
while every appended row (appends are issued with index=False) populates
only the schema's columns: the table declares one more column than any
appended row populates, whatever the later chunks and store failures do. -/
theorem index_column_mismatch (fail : Nat → Bool)
    (schema : List (String × ColType)) (n : Nat) (db0 : Option Table)
    (src : Source) (c0 : List (List String)) (rest0 : List (List (List String)))
    (b0 : List (List Value))
    (hsplit : chunksOf n src.rows = c0 :: rest0)
    (hw : ∀ r ∈ src.rows, r.length = schema.length)
    (hc0 : coerceChunk schema c0 = Except.ok b0) :
    ∃ t, (ingest_data_in_chunks fail schema n db0 src).db = some t ∧
      t.ncols = schema.length + 1 ∧
      ∀ row ∈ t.rows, row.length + 1 = t.ncols := by
  have hwc : ∀ c ∈ chunksOf n src.rows, ∀ r ∈ c, r.length = schema.length := by
    intro c hc r hr
    refine hw r ?_
    rw [← chunksOf_flatten n src.rows]
    exact List.mem_flatten.mpr ⟨c, hc, hr⟩
  unfold ingest_data_in_chunks
  rw [hsplit, ingestLoop_first_ok fail schema c0 rest0 b0 0 db0 0 hc0]
  cases hk : fail 0 with
  | true =>
    rw [if_pos rfl]
    exact ⟨createTableReplace schema.length, rfl, rfl, by simp [createTableReplace]⟩
  | false =>
    rw [if_neg (by simp)]
    have hb0 : ∀ row ∈ b0, row.length = schema.length := by
      intro row hrow
      rcases coerceRows_mem_rev schema c0 0 b0 hc0 row hrow with ⟨r, hr1, hr2⟩
      have hlen := coerceCells_length schema r row hr2
      have hrl := hwc c0 (by rw [hsplit]; exact List.mem_cons_self _ _) r hr1
      omega
    rcases ingestLoop_table_width fail schema rest0 1 ⟨schema.length + 1, b0⟩
      (0 + b0.length)
      (fun c hc => hwc c (by rw [hsplit]; exact List.mem_cons_of_mem _ hc))
      (by simpa using hb0) with ⟨t2, h1, h2, h3⟩
    have h2e : t2.ncols = schema.length + 1 := h2
    refine ⟨t2, ?_, h2e, ?_⟩
    · simp only [prependEvents]
      exact h1
    · intro row hrow
      have := h3 row hrow
      rw [h2e]
      omega

theorem index_column_mismatch_witness :
    ∃ t, (ingest_data_in_chunks (fun _ => false) [("a", ColType.int64)] 1 none
        ⟨["a"], [["1"]]⟩).db = some t ∧
      t.ncols = 2 ∧
      ∀ row ∈ t.rows, row.length + 1 = t.ncols :=
  index_column_mismatch (fun _ => false) [("a", ColType.int64)] 1 none
    ⟨["a"], [["1"]]⟩ [["1"]] [] [[Value.intVal 1]]
    (by decide)
    (by
      intro r hr
      simp at hr
      subst hr
      rfl)
    rfl

/-- Claim C10: Empty-source behaviour — a source that yields zero batches
(no data rows) leads to a run that performs no table creation or
replacement and no append: the table state of the name is exactly what it
was before the run, no progress events are emitted, no error occurs, and
the reported total is 0. -/
theorem empty_source_noop (fail : Nat → Bool) (schema : List (String × ColType))
    (n : Nat) (db0 : Option Table) (src : Source) (h : src.rows = []) :
    ingest_data_in_chunks fail schema n db0 src = ⟨db0, 0, [], none⟩ :=
  ingest_empty_run fail schema n db0 src h

theorem empty_source_noop_witness :
    ingest_data_in_chunks (fun _ => false) [("a", ColType.int64)] 100000
        (some ⟨3, [[Value.strVal "keep"]]⟩) ⟨["a"], []⟩
      = ⟨some ⟨3, [[Value.strVal "keep"]]⟩, 0, [], none⟩ :=
  empty_source_noop (fun _ => false) [("a", ColType.int64)] 100000
    (some ⟨3, [[Value.strVal "keep"]]⟩) ⟨["a"], []⟩ rfl

end Pipeline
